import Mathlib

/-!
# Verification of the emotion-sampling and logging pipeline

Shallow embedding of the core logic of the `EmotionDetection` React
component (`src/unnamed/part_000`): the per-tick emotion sampler
(`handleVideoPlay`), the speech-transcript amendment callback
(`initializeSpeechRecognition`), and the CSV exporter (`downloadLogs`).

Confidence scores are JS numbers used only through order comparisons and
are modelled as rationals.  JS `Array.prototype.sort` with comparator
`(a, b) => b[1] - a[1]` is a stable sort by confidence descending and is
modelled by `List.mergeSort` with the corresponding total preorder.
-/

namespace GlaZoom

/-- One per-tick sample: `{ emotion, confidence }` pushed onto
`emotionBuffer` (line 137 of `part_000`). -/
structure ExpressionSample where
  emotion : String
  confidence : ℚ
  deriving DecidableEq, Repr

/-- One committed record of `emotionsLog`:
`{ time, emotion, speech }` (lines 141-150). -/
structure LogEntry where
  time : String
  emotion : String
  speech : String
  deriving DecidableEq, Repr

/-- The mutable session state: `emotionBuffer.current`, `emotionsLog`,
and the `currentEmotion` observable. -/
structure State where
  buffer : List ExpressionSample
  log : List LogEntry
  currentEmotion : String
  deriving DecidableEq, Repr

/-- `Object.entries(emotions).sort((a, b) => b[1] - a[1])` (line 134):
stable sort of the expression mapping by confidence descending. -/
def sortEmotions (expr : List (String × ℚ)) : List (String × ℚ) :=
  expr.mergeSort (fun a b => decide (b.2 ≤ a.2))

/-- `sortedEmotions[0]` (line 135): the strongest emotion of one face,
`none` when the expression mapping is empty. -/
def strongestOf (expr : List (String × ℚ)) : Option ExpressionSample :=
  match sortEmotions expr with
  | [] => none
  | p :: _ => some ⟨p.1, p.2⟩

/-- The reducer of line 140:
`(prev, current) => (prev.confidence > current.confidence ? prev : current)`.
On a tie it yields `current`, the later sample. -/
def keepStronger (prev current : ExpressionSample) : ExpressionSample :=
  if prev.confidence > current.confidence then prev else current

/-- `emotionBuffer.current.reduce((prev, current) =>
(prev.confidence > current.confidence ? prev : current))` (line 140):
JS `reduce` with no initial value, `none` on an empty buffer. -/
def reduceBest (buf : List ExpressionSample) : Option ExpressionSample :=
  match buf with
  | [] => none
  | x :: xs => some (xs.foldl keepStronger x)

/-- Lines 139-155: if the buffer has reached 5 samples, commit one
`LogEntry` (current wall-clock `now`, winning emotion, empty speech),
update `currentEmotion` and clear the buffer. -/
def maybeFlush (now : String) (s : State) : State :=
  if 5 ≤ s.buffer.length then
    match reduceBest s.buffer with
    | none => s
    | some best =>
        { buffer := []
          log := s.log ++ [⟨now, best.emotion, ""⟩]
          currentEmotion := best.emotion }
  else s

/-- One sampling tick (lines 132-156).  `detections` is the list of
detected faces, each given by its expression mapping; `now` is the
wall-clock string read at commit time.  Zero faces: no mutation.
Otherwise push the strongest emotion of the first face and flush the
buffer when it has reached 5 samples. -/
def tick (now : String) (detections : List (List (String × ℚ))) (s : State) : State :=
  match detections with
  | [] => s
  | expr :: _ =>
      match strongestOf expr with
      | none => s
      | some sample => maybeFlush now { s with buffer := s.buffer ++ [sample] }

/-- The `onresult` callback of the speech recognizer (lines 61-72):
if the log is non-empty, map over it replacing entry
`prevLogs.length - 1` with `{ ...log, speech: transcript }`;
an empty log is returned unchanged. -/
def amendLastWithSpeech (transcript : String) (logs : List LogEntry) : List LogEntry :=
  match logs.getLast? with
  | none => logs
  | some _ =>
      logs.mapIdx (fun i log =>
        if i = logs.length - 1 then { log with speech := transcript } else log)

/-- The two session-state mutations the component performs. -/
inductive Op where
  | tick (now : String) (detections : List (List (String × ℚ)))
  | amend (transcript : String)

/-- Apply one operation to the session state. -/
def step (s : State) : Op → State
  | .tick now ds => tick now ds s
  | .amend t => { s with log := amendLastWithSpeech t s.log }

/-- Run a sequence of operations from a state. -/
def run (s : State) : List Op → State
  | [] => s
  | op :: ops => run (step s op) ops

/-- The state at component mount: empty buffer, empty log. -/
def initState : State := ⟨[], [], ""⟩

/-- Whether an operation is a tick that records a sample: at least one
face detected and the first face's expression mapping non-empty. -/
def producesSample : Op → Bool
  | .tick _ (expr :: _) => !expr.isEmpty
  | _ => false

/-- Number of sample-recording ticks in an operation sequence. -/
def numSamples (ops : List Op) : ℕ :=
  (ops.filter producesSample).length

/-- `downloadLogs` (lines 162-165): the `data:` URI text whose download
is triggered, a header row then one `time,emotion,speech` row per
entry, joined by newlines, with no quoting or escaping. -/
def csvContent (logs : List LogEntry) : String :=
  "data:text/csv;charset=utf-8,Time,Emotion,Speech\n" ++
    String.intercalate "\n"
      (logs.map fun log => log.time ++ "," ++ log.emotion ++ "," ++ log.speech)

/-- The data portion of the exported URI, after the
`data:text/csv;charset=utf-8,` scheme-and-MIME prefix: the CSV text
itself. -/
def csvData (logs : List LogEntry) : String :=
  "Time,Emotion,Speech\n" ++
    String.intercalate "\n"
      (logs.map fun log => log.time ++ "," ++ log.emotion ++ "," ++ log.speech)

unseal List.merge List.mergeSort in
example :
    tick "08:00:00" [[("happy", mkRat 9 10), ("sad", mkRat 1 10)]] initState =
      ⟨[⟨"happy", mkRat 9 10⟩], [], ""⟩ := by decide

example :
    reduceBest [⟨"a", mkRat 2 10⟩, ⟨"b", mkRat 9 10⟩, ⟨"c", mkRat 9 10⟩,
      ⟨"d", mkRat 1 10⟩, ⟨"e", mkRat 3 10⟩] = some ⟨"c", mkRat 9 10⟩ := by decide

example : csvData [⟨"08:00:01", "happy", ""⟩, ⟨"08:00:02", "sad", "hi there"⟩] =
    "Time,Emotion,Speech\n08:00:01,happy,\n08:00:02,sad,hi there" := by decide

example : amendLastWithSpeech "hello" [⟨"08:00:01", "happy", ""⟩] =
    [⟨"08:00:01", "happy", "hello"⟩] := by decide

/-! ## Lemmas about the speech-amend operation -/

theorem amendLast_nil (t : String) : amendLastWithSpeech t [] = [] := rfl

theorem amendLast_concat (t : String) (l : List LogEntry) (e : LogEntry) :
    amendLastWithSpeech t (l ++ [e]) = l ++ [{ e with speech := t }] := by
  unfold amendLastWithSpeech
  rw [List.getLast?_concat]
  apply List.ext_getElem?
  intro i
  rw [List.getElem?_mapIdx]
  rcases Nat.lt_trichotomy i l.length with hi | hi | hi
  · rw [List.getElem?_append_left hi, List.getElem?_append_left hi]
    cases hx : l[i]? with
    | none => rfl
    | some x =>
        have hcond : ¬ i = (l ++ [e]).length - 1 := by
          simp only [List.length_append, List.length_singleton]
          omega
        have hne : ¬ i = l.length := by omega
        simp [hcond, hne]
  · subst hi
    rw [List.getElem?_append_right (Nat.le_refl _),
      List.getElem?_append_right (Nat.le_refl _)]
    simp
  · have h₁ : (l ++ [e]).length ≤ i := by
      simp only [List.length_append, List.length_singleton]
      omega
    have h₂ : (l ++ [{ e with speech := t }]).length ≤ i := by
      simp only [List.length_append, List.length_singleton]
      omega
    rw [List.getElem?_eq_none h₁, List.getElem?_eq_none h₂]
    rfl

theorem amendLast_length (t : String) (l : List LogEntry) :
    (amendLastWithSpeech t l).length = l.length := by
  unfold amendLastWithSpeech
  cases h : l.getLast? with
  | none => rfl
  | some e => simp

/-- C4.  When the log is non-empty, the speech recognizer's completion
callback replaces only the last entry's speech field with the
transcript: the log decomposes as `front ++ [last]` and the amended log
is `front ++ [last-with-new-speech]`, so that entry's time and emotion,
every earlier entry, and the length are unchanged. -/
theorem speechAmend_updates_only_last (t : String) (logs : List LogEntry)
    (h : logs ≠ []) :
    ∃ last, logs.getLast? = some last ∧
      amendLastWithSpeech t logs = logs.dropLast ++ [{ last with speech := t }] ∧
      (amendLastWithSpeech t logs).length = logs.length ∧
      (∀ i, i + 1 < logs.length → (amendLastWithSpeech t logs)[i]? = logs[i]?) ∧
      (amendLastWithSpeech t logs).getLast? =
        some ⟨last.time, last.emotion, t⟩ := by
  rcases (List.eq_nil_or_concat logs) with rfl | ⟨front, last, rfl⟩
  · exact absurd rfl h
  · rw [List.concat_eq_append] at *
    refine ⟨last, List.getLast?_concat _, ?_, ?_, ?_, ?_⟩
    · rw [amendLast_concat, List.dropLast_concat]
    · rw [amendLast_length]
    · intro i hi
      rw [amendLast_concat]
      have hi' : i < front.length := by
        simp only [List.length_append, List.length_singleton] at hi
        omega
      rw [List.getElem?_append_left hi', List.getElem?_append_left hi']
    · rw [amendLast_concat, List.getLast?_concat]

/-- Closed witness for `speechAmend_updates_only_last`. -/
theorem speechAmend_updates_only_last_witness :
    ∃ last, [(⟨"08:00:01", "happy", ""⟩ : LogEntry)].getLast? = some last ∧
      amendLastWithSpeech "hello" [⟨"08:00:01", "happy", ""⟩] =
        [(⟨"08:00:01", "happy", ""⟩ : LogEntry)].dropLast ++
          [{ last with speech := "hello" }] ∧
      (amendLastWithSpeech "hello" [⟨"08:00:01", "happy", ""⟩]).length =
        [(⟨"08:00:01", "happy", ""⟩ : LogEntry)].length ∧
      (∀ i, i + 1 < [(⟨"08:00:01", "happy", ""⟩ : LogEntry)].length →
        (amendLastWithSpeech "hello" [⟨"08:00:01", "happy", ""⟩])[i]? =
          [(⟨"08:00:01", "happy", ""⟩ : LogEntry)][i]?) ∧
      (amendLastWithSpeech "hello" [⟨"08:00:01", "happy", ""⟩]).getLast? =
        some ⟨last.time, last.emotion, "hello"⟩ :=
  speechAmend_updates_only_last "hello" [⟨"08:00:01", "happy", ""⟩] (by decide)

/-- C5.  Amending an empty log is a no-op: the transcript is silently
dropped and the log stays empty, whatever the transcript is. -/
theorem speechAmend_empty_noop (t : String) :
    amendLastWithSpeech t [] = [] ∧ (amendLastWithSpeech t []).length = 0 :=
  ⟨rfl, rfl⟩

/-- C9.  Amending twice overwrites: on a non-empty log, amending with
`t1` and then with `t2` yields the same log as amending with `t2`
alone, and the final speech of the last entry is `t2` — the earlier
transcript is lost. -/
theorem speechAmend_overwrites (t1 t2 : String) (logs : List LogEntry)
    (h : logs ≠ []) :
    amendLastWithSpeech t2 (amendLastWithSpeech t1 logs) =
      amendLastWithSpeech t2 logs ∧
    ∃ last, logs.getLast? = some last ∧
      (amendLastWithSpeech t2 (amendLastWithSpeech t1 logs)).getLast? =
        some ⟨last.time, last.emotion, t2⟩ := by
  rcases (List.eq_nil_or_concat logs) with rfl | ⟨front, last, rfl⟩
  · exact absurd rfl h
  · rw [List.concat_eq_append] at *
    rw [amendLast_concat, amendLast_concat, amendLast_concat]
    exact ⟨rfl, last, List.getLast?_concat _, List.getLast?_concat _⟩

/-! ## Lemmas about the CSV exporter -/

theorem intercalate_go_append (s x y : String) (l : List String) :
    String.intercalate.go (x ++ y) s l = x ++ String.intercalate.go y s l := by
  induction l generalizing y with
  | nil => rfl
  | cons c cs ih =>
      show String.intercalate.go (x ++ y ++ s ++ c) s cs =
        x ++ String.intercalate.go (y ++ s ++ c) s cs
      rw [String.append_assoc, String.append_assoc, ih, ← String.append_assoc]

theorem intercalate_cons_of_ne_nil (s a : String) (l : List String) (h : l ≠ []) :
    String.intercalate s (a :: l) = a ++ s ++ String.intercalate s l := by
  cases l with
  | nil => exact absurd rfl h
  | cons b bs =>
      show String.intercalate.go a s (b :: bs) =
        a ++ s ++ String.intercalate.go b s bs
      show String.intercalate.go (a ++ s ++ b) s bs =
        a ++ s ++ String.intercalate.go b s bs
      exact intercalate_go_append s (a ++ s) b bs

/-- C3.  The exporter produces the `data:` URI prefix followed by the
CSV text, and the CSV text is the header row and one
`time,emotion,speech` row per entry joined by newlines, with no quoting
or escaping; on the spec's two-entry log the text is exactly
`Time,Emotion,Speech\n08:00:01,happy,\n08:00:02,sad,hi there`. -/
theorem export_csv_shape (logs : List LogEntry) (h : logs ≠ []) :
    csvContent logs = "data:text/csv;charset=utf-8," ++ csvData logs ∧
    csvData logs =
      String.intercalate "\n" ("Time,Emotion,Speech" ::
        logs.map (fun log =>
          log.time ++ "," ++ log.emotion ++ "," ++ log.speech)) ∧
    csvData [⟨"08:00:01", "happy", ""⟩, ⟨"08:00:02", "sad", "hi there"⟩] =
      "Time,Emotion,Speech\n08:00:01,happy,\n08:00:02,sad,hi there" := by
  refine ⟨?_, ?_, by decide⟩
  · unfold csvContent csvData
    rw [← String.append_assoc]
    have hs : ("data:text/csv;charset=utf-8,Time,Emotion,Speech\n" : String) =
        "data:text/csv;charset=utf-8," ++ "Time,Emotion,Speech\n" := by decide
    rw [hs]
  · unfold csvData
    rw [intercalate_cons_of_ne_nil]
    · have hs : ("Time,Emotion,Speech\n" : String) =
          "Time,Emotion,Speech" ++ "\n" := by decide
      rw [hs, String.append_assoc]
    · intro hmap
      exact h (List.map_eq_nil_iff.mp hmap)

/-- Closed witness for `export_csv_shape`. -/
theorem export_csv_shape_witness :
    csvContent [(⟨"08:00:01", "happy", ""⟩ : LogEntry)] =
      "data:text/csv;charset=utf-8," ++
        csvData [(⟨"08:00:01", "happy", ""⟩ : LogEntry)] ∧
    csvData [(⟨"08:00:01", "happy", ""⟩ : LogEntry)] =
      String.intercalate "\n" ("Time,Emotion,Speech" ::
        [(⟨"08:00:01", "happy", ""⟩ : LogEntry)].map (fun log =>
          log.time ++ "," ++ log.emotion ++ "," ++ log.speech)) ∧
    csvData [⟨"08:00:01", "happy", ""⟩, ⟨"08:00:02", "sad", "hi there"⟩] =
      "Time,Emotion,Speech\n08:00:01,happy,\n08:00:02,sad,hi there" :=
  export_csv_shape [⟨"08:00:01", "happy", ""⟩] (by decide)

/-- C10.  Exporting an empty log still succeeds: the document is the
URI prefix plus a data portion holding only the header row and no entry
rows. -/
theorem export_empty_log :
    csvContent [] = "data:text/csv;charset=utf-8,Time,Emotion,Speech\n" ∧
    csvData [] = "Time,Emotion,Speech\n" := by decide

/-- C8.  A tick with zero detected faces is the identity on the session
state: the buffer and the log after the tick equal those before it. -/
theorem zero_faces_tick_noop (now : String) (s : State) :
    tick now [] s = s ∧ (tick now [] s).buffer = s.buffer ∧
      (tick now [] s).log = s.log :=
  ⟨rfl, rfl, rfl⟩

/-- Closed witness for `speechAmend_overwrites`. -/
theorem speechAmend_overwrites_witness :
    amendLastWithSpeech "bye"
        (amendLastWithSpeech "hi" [⟨"08:00:01", "happy", ""⟩]) =
      amendLastWithSpeech "bye" [⟨"08:00:01", "happy", ""⟩] ∧
    ∃ last, [(⟨"08:00:01", "happy", ""⟩ : LogEntry)].getLast? = some last ∧
      (amendLastWithSpeech "bye"
          (amendLastWithSpeech "hi" [⟨"08:00:01", "happy", ""⟩])).getLast? =
        some ⟨last.time, last.emotion, "bye"⟩ :=
  speechAmend_overwrites "hi" "bye" [⟨"08:00:01", "happy", ""⟩] (by decide)

/-! ## Lemmas about the per-tick strongest emotion -/

theorem sortEmotions_ne_nil (expr : List (String × ℚ)) (h : expr ≠ []) :
    sortEmotions expr ≠ [] := by
  intro hnil
  apply h
  have := congrArg List.length hnil
  rw [sortEmotions, List.length_mergeSort] at this
  exact List.eq_nil_of_length_eq_zero this

theorem strongestOf_spec (expr : List (String × ℚ)) (st : ExpressionSample)
    (h : strongestOf expr = some st) :
    (st.emotion, st.confidence) ∈ expr ∧ ∀ q ∈ expr, q.2 ≤ st.confidence := by
  unfold strongestOf at h
  cases hs : sortEmotions expr with
  | nil => rw [hs] at h; exact absurd h (by simp)
  | cons p ps =>
      rw [hs] at h
      have hst : st = ⟨p.1, p.2⟩ := by
        cases h
        rfl
      have hpair : (st.emotion, st.confidence) = p := by rw [hst]
      have hsorted : (sortEmotions expr).Pairwise
          (fun a b => decide (b.2 ≤ a.2)) := by
        apply List.sorted_mergeSort
        · intro a b c hab hbc
          have h1 : b.2 ≤ a.2 := of_decide_eq_true hab
          have h2 : c.2 ≤ b.2 := of_decide_eq_true hbc
          exact decide_eq_true (le_trans h2 h1)
        · intro a b
          rcases le_total b.2 a.2 with hle | hle
          · simp [hle]
          · simp [hle]
      rw [hs] at hsorted
      have hhead : ∀ q ∈ ps, q.2 ≤ p.2 := by
        intro q hq
        exact of_decide_eq_true ((List.pairwise_cons.mp hsorted).1 q hq)
      constructor
      · rw [hpair]
        have : p ∈ sortEmotions expr := by rw [hs]; exact List.mem_cons_self p ps
        rw [sortEmotions] at this
        exact List.mem_mergeSort.mp this
      · intro q hq
        have hq' : q ∈ sortEmotions expr := by
          rw [sortEmotions]
          exact List.mem_mergeSort.mpr hq
        rw [hs] at hq'
        rcases List.mem_cons.mp hq' with rfl | hq''
        · rw [hst]
        · rw [hst]
          exact hhead q hq''

/-- C7.  On a tick with at least one detected face whose expression
mapping is non-empty, the sample pushed onto the buffer is the top of
the confidence-descending sort of the first face's mapping: it is one
of the mapping's entries and its confidence is maximal there, and the
rest of the tick is the flush check on the extended buffer. -/
theorem tick_appends_strongest (now : String) (expr : List (String × ℚ))
    (rest : List (List (String × ℚ))) (s : State) (h : expr ≠ []) :
    ∃ st, strongestOf expr = some st ∧
      tick now (expr :: rest) s =
        maybeFlush now { s with buffer := s.buffer ++ [st] } ∧
      (st.emotion, st.confidence) ∈ expr ∧
      ∀ q ∈ expr, q.2 ≤ st.confidence := by
  have hne := sortEmotions_ne_nil expr h
  cases hs : sortEmotions expr with
  | nil => exact absurd hs hne
  | cons p ps =>
      have hst : strongestOf expr = some ⟨p.1, p.2⟩ := by
        unfold strongestOf
        rw [hs]
      obtain ⟨hmem, hmax⟩ := strongestOf_spec expr ⟨p.1, p.2⟩ hst
      refine ⟨⟨p.1, p.2⟩, hst, ?_, hmem, hmax⟩
      simp only [tick, hst]

unseal List.merge List.mergeSort in
/-- Closed witness for `tick_appends_strongest`. -/
theorem tick_appends_strongest_witness :
    ∃ st, strongestOf [("sad", mkRat 1 10), ("happy", mkRat 9 10)] = some st ∧
      tick "08:00:00" [[("sad", mkRat 1 10), ("happy", mkRat 9 10)]] initState =
        maybeFlush "08:00:00"
          { initState with buffer := initState.buffer ++ [st] } ∧
      (st.emotion, st.confidence) ∈ [("sad", mkRat 1 10), ("happy", mkRat 9 10)] ∧
      ∀ q ∈ [("sad", mkRat 1 10), ("happy", mkRat 9 10)],
        q.2 ≤ st.confidence :=
  tick_appends_strongest "08:00:00" [("sad", mkRat 1 10), ("happy", mkRat 9 10)]
    [] initState (by decide)

/-! ## The flush winner: last occurrence of the maximal confidence -/

/-- `e` occurs in `l`, has maximal confidence there, and every later
element has strictly smaller confidence: `e` is the latest element of
`l` attaining the maximum. -/
def isLastMax (l : List ExpressionSample) (e : ExpressionSample) : Prop :=
  ∃ i : ℕ, l[i]? = some e ∧
    (∀ (j : ℕ) (y : ExpressionSample),
      l[j]? = some y → y.confidence ≤ e.confidence) ∧
    (∀ (j : ℕ) (y : ExpressionSample),
      i < j → l[j]? = some y → y.confidence < e.confidence)

theorem foldl_keepStronger_isLastMax (x : ExpressionSample)
    (xs : List ExpressionSample) :
    isLastMax (x :: xs) (xs.foldl keepStronger x) := by
  induction xs using List.reverseRecOn with
  | nil =>
      refine ⟨0, rfl, ?_, ?_⟩
      · intro j y hy
        cases j with
        | zero =>
            simp only [List.getElem?_cons_zero, Option.some.injEq] at hy
            subst hy
            exact le_refl _
        | succ n => simp at hy
      · intro j y hj hy
        cases j with
        | zero => omega
        | succ n => simp at hy
  | append_singleton ys y ih =>
      obtain ⟨i, hgi, hmax, hafter⟩ := ih
      have hfold : (ys ++ [y]).foldl keepStronger x =
          keepStronger (ys.foldl keepStronger x) y := by
        rw [List.foldl_append]
        rfl
      rw [← List.cons_append, hfold]
      set b := ys.foldl keepStronger x with hb
      have hlen : i < (x :: ys).length :=
        (List.getElem?_eq_some_iff.mp hgi).1
      by_cases hc : b.confidence > y.confidence
      · have hk : keepStronger b y = b := if_pos hc
        rw [hk]
        refine ⟨i, ?_, ?_, ?_⟩
        · rw [List.getElem?_append_left hlen]
          exact hgi
        · intro j z hz
          rcases Nat.lt_or_ge j (x :: ys).length with hj | hj
          · rw [List.getElem?_append_left hj] at hz
            exact hmax j z hz
          · rw [List.getElem?_append_right hj] at hz
            cases hd : j - (x :: ys).length with
            | zero =>
                rw [hd] at hz
                simp only [List.getElem?_cons_zero, Option.some.injEq] at hz
                subst hz
                exact le_of_lt hc
            | succ n =>
                rw [hd] at hz
                simp at hz
        · intro j z hj hz
          rcases Nat.lt_or_ge j (x :: ys).length with hj2 | hj2
          · rw [List.getElem?_append_left hj2] at hz
            exact hafter j z hj hz
          · rw [List.getElem?_append_right hj2] at hz
            cases hd : j - (x :: ys).length with
            | zero =>
                rw [hd] at hz
                simp only [List.getElem?_cons_zero, Option.some.injEq] at hz
                subst hz
                exact hc
            | succ n =>
                rw [hd] at hz
                simp at hz
      · have hyc : b.confidence ≤ y.confidence := not_lt.mp hc
        have hk : keepStronger b y = y := if_neg hc
        rw [hk]
        refine ⟨(x :: ys).length, ?_, ?_, ?_⟩
        · exact List.getElem?_concat_length _ _
        · intro j z hz
          rcases Nat.lt_or_ge j (x :: ys).length with hj | hj
          · rw [List.getElem?_append_left hj] at hz
            exact le_trans (hmax j z hz) hyc
          · rw [List.getElem?_append_right hj] at hz
            cases hd : j - (x :: ys).length with
            | zero =>
                rw [hd] at hz
                simp only [List.getElem?_cons_zero, Option.some.injEq] at hz
                subst hz
                exact le_refl _
            | succ n =>
                rw [hd] at hz
                simp at hz
        · intro j z hj hz
          have hj2 : (x :: ys).length ≤ j := le_of_lt hj
          rw [List.getElem?_append_right hj2] at hz
          cases hd : j - (x :: ys).length with
          | zero => omega
          | succ n =>
              rw [hd] at hz
              simp at hz

unseal List.merge List.mergeSort in
/-- C1 counterexample.  Running five one-face ticks with confidences
`[0.2, 0.9, 0.9, 0.1, 0.3]` and emotions `[a, b, c, d, e]` from the
mount state commits the emotion `c` — the later of the two samples
tied at the maximal confidence — and not `b` as the claim states. -/
theorem first_occurrence_tie_refuted :
    (run initState
        [Op.tick "08:00:00" [[("a", mkRat 2 10)]],
         Op.tick "08:00:01" [[("b", mkRat 9 10)]],
         Op.tick "08:00:02" [[("c", mkRat 9 10)]],
         Op.tick "08:00:03" [[("d", mkRat 1 10)]],
         Op.tick "08:00:04" [[("e", mkRat 3 10)]]]).log.map LogEntry.emotion
      = ["c"] ∧
    ¬ (run initState
        [Op.tick "08:00:00" [[("a", mkRat 2 10)]],
         Op.tick "08:00:01" [[("b", mkRat 9 10)]],
         Op.tick "08:00:02" [[("c", mkRat 9 10)]],
         Op.tick "08:00:03" [[("d", mkRat 1 10)]],
         Op.tick "08:00:04" [[("e", mkRat 3 10)]]]).log.map LogEntry.emotion
      = ["b"] := by decide

/-- C1 amended.  When a tick pushes a fifth sample onto a buffer of
four, the flush commits exactly one entry whose emotion is that of the
**latest** sample attaining the maximal confidence among the five (ties
on the maximum are resolved by last occurrence, since the reduction
keeps the previous winner only when it is strictly greater). -/
theorem flush_commits_last_max (now : String) (expr : List (String × ℚ))
    (rest : List (List (String × ℚ))) (s : State)
    (hbuf : s.buffer.length = 4) (hexpr : expr ≠ []) :
    ∃ st e, strongestOf expr = some st ∧
      reduceBest (s.buffer ++ [st]) = some e ∧
      (tick now (expr :: rest) s).log = s.log ++ [⟨now, e.emotion, ""⟩] ∧
      (tick now (expr :: rest) s).buffer = [] ∧
      isLastMax (s.buffer ++ [st]) e := by
  have hne := sortEmotions_ne_nil expr hexpr
  cases hs : sortEmotions expr with
  | nil => exact absurd hs hne
  | cons p ps =>
      have hst : strongestOf expr = some ⟨p.1, p.2⟩ := by
        unfold strongestOf
        rw [hs]
      obtain ⟨x, xs, hb⟩ : ∃ x xs, s.buffer = x :: xs := by
        cases hsb : s.buffer with
        | nil => rw [hsb] at hbuf; simp at hbuf
        | cons x xs => exact ⟨x, xs, rfl⟩
      have hred : reduceBest (s.buffer ++ [(⟨p.1, p.2⟩ : ExpressionSample)]) =
          some ((xs ++ [(⟨p.1, p.2⟩ : ExpressionSample)]).foldl keepStronger x) := by
        rw [hb, List.cons_append]
        rfl
      have hlen5 : 5 ≤ (s.buffer ++ [(⟨p.1, p.2⟩ : ExpressionSample)]).length := by
        rw [List.length_append, hbuf]
        exact le_refl _
      have htick : tick now (expr :: rest) s =
          maybeFlush now { s with buffer := s.buffer ++ [⟨p.1, p.2⟩] } := by
        simp only [tick, hst]
      refine ⟨⟨p.1, p.2⟩,
        (xs ++ [(⟨p.1, p.2⟩ : ExpressionSample)]).foldl keepStronger x,
        hst, hred, ?_, ?_, ?_⟩
      · rw [htick]
        unfold maybeFlush
        rw [if_pos hlen5]
        simp only [hred]
      · rw [htick]
        unfold maybeFlush
        rw [if_pos hlen5]
        simp only [hred]
      · rw [hb, List.cons_append]
        exact foldl_keepStronger_isLastMax x
          (xs ++ [(⟨p.1, p.2⟩ : ExpressionSample)])

unseal List.merge List.mergeSort in
/-- Closed witness for `flush_commits_last_max`. -/
theorem flush_commits_last_max_witness :
    ∃ st e, strongestOf [("e", mkRat 3 10)] = some st ∧
      reduceBest ([⟨"a", mkRat 2 10⟩, ⟨"b", mkRat 9 10⟩, ⟨"c", mkRat 9 10⟩,
          ⟨"d", mkRat 1 10⟩] ++ [st]) = some e ∧
      (tick "08:00:04" [[("e", mkRat 3 10)]]
          ⟨[⟨"a", mkRat 2 10⟩, ⟨"b", mkRat 9 10⟩, ⟨"c", mkRat 9 10⟩,
            ⟨"d", mkRat 1 10⟩], [], ""⟩).log =
        ([] : List LogEntry) ++ [⟨"08:00:04", e.emotion, ""⟩] ∧
      (tick "08:00:04" [[("e", mkRat 3 10)]]
          ⟨[⟨"a", mkRat 2 10⟩, ⟨"b", mkRat 9 10⟩, ⟨"c", mkRat 9 10⟩,
            ⟨"d", mkRat 1 10⟩], [], ""⟩).buffer = [] ∧
      isLastMax ([⟨"a", mkRat 2 10⟩, ⟨"b", mkRat 9 10⟩, ⟨"c", mkRat 9 10⟩,
          ⟨"d", mkRat 1 10⟩] ++ [st]) e :=
  flush_commits_last_max "08:00:04" [("e", mkRat 3 10)] []
    ⟨[⟨"a", mkRat 2 10⟩, ⟨"b", mkRat 9 10⟩, ⟨"c", mkRat 9 10⟩,
      ⟨"d", mkRat 1 10⟩], [], ""⟩ (by decide) (by decide)

/-! ## Step lemmas for the buffer/commit invariant -/

theorem strongestOf_eq_none (expr : List (String × ℚ))
    (h : strongestOf expr = none) : expr = [] := by
  by_contra hne
  cases hs : sortEmotions expr with
  | nil => exact sortEmotions_ne_nil expr hne hs
  | cons p ps =>
      unfold strongestOf at h
      rw [hs] at h
      simp at h

theorem strongestOf_nil : strongestOf ([] : List (String × ℚ)) = none := by
  unfold strongestOf
  rw [show sortEmotions ([] : List (String × ℚ)) = [] from by
    rw [sortEmotions]
    exact List.mergeSort_nil]

theorem reduceBest_ne_none (l : List ExpressionSample) (h : l ≠ []) :
    ∃ b, reduceBest l = some b := by
  cases l with
  | nil => exact absurd rfl h
  | cons x xs => exact ⟨xs.foldl keepStronger x, rfl⟩

theorem amendLast_log_same_length (t : String) (s : State) :
    (step s (Op.amend t)).log.length = s.log.length := by
  simp only [step]
  exact amendLast_length t s.log

theorem numSamples_cons (op : Op) (ops : List Op) :
    numSamples (op :: ops) =
      (if producesSample op then 1 else 0) + numSamples ops := by
  unfold numSamples
  cases hps : producesSample op
  · simp [List.filter_cons, hps]
  · simp [List.filter_cons, hps]
    omega

theorem numSamples_append_one (ops : List Op) (op : Op) :
    numSamples (ops ++ [op]) =
      numSamples ops + (if producesSample op then 1 else 0) := by
  unfold numSamples
  rw [List.filter_append, List.length_append]
  cases hps : producesSample op <;> simp [List.filter_cons, hps]

theorem run_append_one (s : State) (ops : List Op) (op : Op) :
    run s (ops ++ [op]) = step (run s ops) op := by
  induction ops generalizing s with
  | nil => rfl
  | cons o os ih =>
      simp only [List.cons_append, run]
      exact ih (step s o)

/-- One step preserves `buffer.length < 5` and advances the measure
`5 * log.length + buffer.length` by exactly one per recorded sample. -/
theorem step_measure (s : State) (op : Op) (h : s.buffer.length < 5) :
    (step s op).buffer.length < 5 ∧
    5 * (step s op).log.length + (step s op).buffer.length =
      5 * s.log.length + s.buffer.length +
        (if producesSample op then 1 else 0) := by
  cases op with
  | amend t =>
      refine ⟨h, ?_⟩
      simp only [step, producesSample]
      rw [amendLast_length]
      simp
  | tick now ds =>
      cases ds with
      | nil =>
          simp only [step, tick, producesSample]
          exact ⟨h, by simp⟩
      | cons expr rest =>
          cases hst : strongestOf expr with
          | none =>
              have hnil : expr = [] := strongestOf_eq_none expr hst
              subst hnil
              simp only [step, tick, hst, producesSample, List.isEmpty_nil]
              exact ⟨h, by simp⟩
          | some st =>
              have hne : expr ≠ [] := by
                intro hnil
                rw [hnil, strongestOf_nil] at hst
                exact Option.noConfusion hst
              have hps : producesSample (Op.tick now (expr :: rest)) = true := by
                simp only [producesSample]
                cases expr with
                | nil => exact absurd rfl hne
                | cons a as => rfl
              simp only [step, tick, hst]
              unfold maybeFlush
              by_cases hlen : 5 ≤ (s.buffer ++ [st]).length
              · obtain ⟨best, hbest⟩ :=
                  reduceBest_ne_none (s.buffer ++ [st]) (by simp)
                rw [if_pos hlen, hbest]
                refine ⟨by simp, ?_⟩
                simp only [List.length_append, List.length_singleton] at hlen
                simp [hps, List.length_append]
                omega
              · rw [if_neg hlen]
                simp only [List.length_append, List.length_singleton] at hlen
                refine ⟨by simp [List.length_append]; omega, ?_⟩
                simp [hps, List.length_append]
                omega

/-- Running any operation sequence from a state with a legal buffer
keeps the buffer legal and accounts every recorded sample in the
measure `5 * log.length + buffer.length`. -/
theorem run_measure (ops : List Op) : ∀ s : State, s.buffer.length < 5 →
    (run s ops).buffer.length < 5 ∧
    5 * (run s ops).log.length + (run s ops).buffer.length =
      5 * s.log.length + s.buffer.length + numSamples ops := by
  induction ops with
  | nil =>
      intro s h
      exact ⟨h, by simp [run, numSamples]⟩
  | cons op ops ih =>
      intro s h
      obtain ⟨h1, h2⟩ := step_measure s op h
      obtain ⟨h3, h4⟩ := ih (step s op) h1
      refine ⟨h3, ?_⟩
      rw [show run s (op :: ops) = run (step s op) ops from rfl, h4,
        numSamples_cons]
      cases hps : producesSample op <;> simp [hps] at h2 ⊢ <;> omega

/-- Case analysis of a single tick from a state with a legal buffer:
skip (no sample), push without commit, or push-and-commit. -/
theorem step_tick_cases (s : State) (now : String)
    (ds : List (List (String × ℚ))) (h : s.buffer.length < 5) :
    (step s (Op.tick now ds) = s ∧
      producesSample (Op.tick now ds) = false) ∨
    ((step s (Op.tick now ds)).log = s.log ∧
      (step s (Op.tick now ds)).buffer.length = s.buffer.length + 1 ∧
      s.buffer.length + 1 < 5 ∧
      producesSample (Op.tick now ds) = true) ∨
    ((step s (Op.tick now ds)).buffer = [] ∧
      (∃ e, (step s (Op.tick now ds)).log = s.log ++ [e]) ∧
      s.buffer.length = 4 ∧
      producesSample (Op.tick now ds) = true) := by
  cases ds with
  | nil => exact Or.inl ⟨rfl, rfl⟩
  | cons expr rest =>
      cases hst : strongestOf expr with
      | none =>
          have hnil : expr = [] := strongestOf_eq_none expr hst
          subst hnil
          exact Or.inl ⟨by simp [step, tick, hst], rfl⟩
      | some st =>
          have hne : expr ≠ [] := by
            intro hnil
            rw [hnil, strongestOf_nil] at hst
            exact Option.noConfusion hst
          have hps : producesSample (Op.tick now (expr :: rest)) = true := by
            simp only [producesSample]
            cases expr with
            | nil => exact absurd rfl hne
            | cons a as => rfl
          simp only [step, tick, hst]
          unfold maybeFlush
          by_cases hlen : 5 ≤ (s.buffer ++ [st]).length
          · have hb4 : s.buffer.length = 4 := by
              simp only [List.length_append, List.length_singleton] at hlen
              omega
            obtain ⟨best, hbest⟩ :=
              reduceBest_ne_none (s.buffer ++ [st]) (by simp)
            rw [if_pos hlen, hbest]
            exact Or.inr (Or.inr ⟨rfl, ⟨⟨now, best.emotion, ""⟩, rfl⟩, hb4, hps⟩)
          · rw [if_neg hlen]
            refine Or.inr (Or.inl ⟨rfl, by simp, ?_, hps⟩)
            simp only [List.length_append, List.length_singleton] at hlen
            omega

/-- C2.  From the mount state, after any operation sequence and one
more tick: if the tick commits nothing the buffer stays below 5; if it
commits, the buffer is emptied and the log grows by exactly one entry;
a commit happens exactly when the buffer held 4 samples and the tick
records a 5th; and no sequence with fewer than 5 recorded samples ever
commits an entry. -/
theorem buffer_flush_invariant (ops : List Op) (now : String)
    (ds : List (List (String × ℚ))) :
    ((run initState (ops ++ [Op.tick now ds])).log = (run initState ops).log →
      (run initState (ops ++ [Op.tick now ds])).buffer.length < 5) ∧
    ((run initState (ops ++ [Op.tick now ds])).log ≠ (run initState ops).log →
      (run initState (ops ++ [Op.tick now ds])).buffer = [] ∧
      ∃ e, (run initState (ops ++ [Op.tick now ds])).log =
        (run initState ops).log ++ [e]) ∧
    ((run initState (ops ++ [Op.tick now ds])).log ≠ (run initState ops).log ↔
      ((run initState ops).buffer.length = 4 ∧
        producesSample (Op.tick now ds) = true)) ∧
    (numSamples (ops ++ [Op.tick now ds]) < 5 →
      (run initState (ops ++ [Op.tick now ds])).log = []) := by
  have hinit : (initState.buffer.length < 5) := by simp [initState]
  have hs5 : (run initState ops).buffer.length < 5 :=
    (run_measure ops initState hinit).1
  have hfull := run_measure (ops ++ [Op.tick now ds]) initState hinit
  have h4 : numSamples (ops ++ [Op.tick now ds]) < 5 →
      (run initState (ops ++ [Op.tick now ds])).log = [] := by
    intro hnum
    have hm := hfull.2
    have hz1 : initState.log.length = 0 := rfl
    have hz2 : initState.buffer.length = 0 := rfl
    have hlen0 : (run initState (ops ++ [Op.tick now ds])).log.length = 0 := by
      omega
    exact List.eq_nil_of_length_eq_zero hlen0
  rcases step_tick_cases (run initState ops) now ds hs5 with
    ⟨heq, hps⟩ | ⟨hlog, hbuf, hlt, hps⟩ | ⟨hbuf, ⟨e, hlog⟩, hb4, hps⟩
  · refine ⟨?_, ?_, ?_, h4⟩
    · intro _
      rw [run_append_one, heq]
      exact hs5
    · intro hne
      rw [run_append_one, heq] at hne
      exact absurd rfl hne
    · constructor
      · intro hne
        rw [run_append_one, heq] at hne
        exact absurd rfl hne
      · rintro ⟨_, hps2⟩
        rw [hps] at hps2
        exact Bool.noConfusion hps2
  · refine ⟨?_, ?_, ?_, h4⟩
    · intro _
      rw [run_append_one, hbuf]
      omega
    · intro hne
      rw [run_append_one, hlog] at hne
      exact absurd rfl hne
    · constructor
      · intro hne
        rw [run_append_one, hlog] at hne
        exact absurd rfl hne
      · rintro ⟨hb, _⟩
        omega
  · have hne : (run initState (ops ++ [Op.tick now ds])).log ≠
        (run initState ops).log := by
      rw [run_append_one, hlog]
      intro hcontra
      have := congrArg List.length hcontra
      simp at this
    refine ⟨?_, ?_, ?_, h4⟩
    · intro hcontra
      exact absurd hcontra hne
    · intro _
      rw [run_append_one]
      exact ⟨hbuf, e, hlog⟩
    · exact iff_of_true hne ⟨hb4, hps⟩

/-- Closed witness for `buffer_flush_invariant`. -/
theorem buffer_flush_invariant_witness :
    ((run initState ([] ++ [Op.tick "08:00:00" []])).log =
        (run initState []).log →
      (run initState ([] ++ [Op.tick "08:00:00" []])).buffer.length < 5) ∧
    ((run initState ([] ++ [Op.tick "08:00:00" []])).log ≠
        (run initState []).log →
      (run initState ([] ++ [Op.tick "08:00:00" []])).buffer = [] ∧
      ∃ e, (run initState ([] ++ [Op.tick "08:00:00" []])).log =
        (run initState []).log ++ [e]) ∧
    ((run initState ([] ++ [Op.tick "08:00:00" []])).log ≠
        (run initState []).log ↔
      ((run initState []).buffer.length = 4 ∧
        producesSample (Op.tick "08:00:00" []) = true)) ∧
    (numSamples ([] ++ [Op.tick "08:00:00" []]) < 5 →
      (run initState ([] ++ [Op.tick "08:00:00" []])).log = []) :=
  buffer_flush_invariant [] "08:00:00" []

/-! ## Frame conditions on the session log -/

/-- C6 amended.  A tick never changes any existing entry (it can only
append), and the amend callback preserves every entry's time and
emotion, changes no entry but the one that is last at that moment, and
keeps the length; so entries are never removed or reordered and only
the last entry's speech is ever mutated — though it may be mutated
again while it stays last. -/
theorem log_entries_frame (s : State) (now : String)
    (ds : List (List (String × ℚ))) (t : String) :
    (∀ i : ℕ, i < s.log.length →
      (step s (Op.tick now ds)).log[i]? = s.log[i]?) ∧
    s.log.length ≤ (step s (Op.tick now ds)).log.length ∧
    ((step s (Op.amend t)).log.map (fun e => (e.time, e.emotion)) =
      s.log.map (fun e => (e.time, e.emotion))) ∧
    (∀ i : ℕ, i + 1 < s.log.length →
      (step s (Op.amend t)).log[i]? = s.log[i]?) ∧
    (step s (Op.amend t)).log.length = s.log.length := by
  have htick : (step s (Op.tick now ds)).log = s.log ∨
      ∃ e, (step s (Op.tick now ds)).log = s.log ++ [e] := by
    simp only [step]
    cases ds with
    | nil => exact Or.inl rfl
    | cons expr rest =>
        cases hst : strongestOf expr with
        | none => simp [tick, hst]
        | some st =>
            simp only [tick, hst]
            unfold maybeFlush
            by_cases hlen : 5 ≤ (s.buffer ++ [st]).length
            · obtain ⟨b, hbb⟩ :=
                reduceBest_ne_none (s.buffer ++ [st]) (by simp)
              rw [if_pos hlen, hbb]
              exact Or.inr ⟨⟨now, b.emotion, ""⟩, rfl⟩
            · rw [if_neg hlen]
              exact Or.inl rfl
  refine ⟨?_, ?_, ?_, ?_, amendLast_log_same_length t s⟩
  · intro i hi
    rcases htick with heq | ⟨e, heq⟩
    · rw [heq]
    · rw [heq, List.getElem?_append_left hi]
  · rcases htick with heq | ⟨e, heq⟩
    · rw [heq]
    · rw [heq]
      simp
  · simp only [step]
    rcases List.eq_nil_or_concat s.log with hnil | ⟨front, last, hconcat⟩
    · rw [hnil]
      rfl
    · rw [List.concat_eq_append] at hconcat
      rw [hconcat, amendLast_concat]
      simp
  · intro i hi
    simp only [step]
    rcases List.eq_nil_or_concat s.log with hnil | ⟨front, last, hconcat⟩
    · rw [hnil]
      rfl
    · rw [List.concat_eq_append] at hconcat
      rw [hconcat, amendLast_concat]
      have hfront : i < front.length := by
        rw [hconcat] at hi
        simp only [List.length_append, List.length_singleton] at hi
        omega
      rw [List.getElem?_append_left hfront, List.getElem?_append_left hfront]

/-- Closed witness for `log_entries_frame`. -/
theorem log_entries_frame_witness :
    (∀ i : ℕ, i < initState.log.length →
      (step initState (Op.tick "08:00:00" [])).log[i]? = initState.log[i]?) ∧
    initState.log.length ≤ (step initState (Op.tick "08:00:00" [])).log.length ∧
    ((step initState (Op.amend "hi")).log.map (fun e => (e.time, e.emotion)) =
      initState.log.map (fun e => (e.time, e.emotion))) ∧
    (∀ i : ℕ, i + 1 < initState.log.length →
      (step initState (Op.amend "hi")).log[i]? = initState.log[i]?) ∧
    (step initState (Op.amend "hi")).log.length = initState.log.length :=
  log_entries_frame initState "08:00:00" [] "hi"

/-- C6 counterexample.  One entry, two transcript arrivals before any
new commit: the same entry's speech field is mutated twice (first to
`hi`, then to `bye`), refuting "mutated exactly once at most". -/
theorem speech_mutated_twice :
    ((step (⟨[], [⟨"08:00:01", "happy", ""⟩], ""⟩ : State)
        (Op.amend "hi")).log[0]?.map LogEntry.speech ≠
      ((⟨[], [⟨"08:00:01", "happy", ""⟩], ""⟩ : State)).log[0]?.map
        LogEntry.speech) ∧
    ((step (step (⟨[], [⟨"08:00:01", "happy", ""⟩], ""⟩ : State)
          (Op.amend "hi")) (Op.amend "bye")).log[0]?.map LogEntry.speech ≠
      (step (⟨[], [⟨"08:00:01", "happy", ""⟩], ""⟩ : State)
          (Op.amend "hi")).log[0]?.map LogEntry.speech) := by decide

end GlaZoom
